import Mathlib

/-!
Verification of the `direct_redis` type-conversion layer.

The repository wraps a key-value store client: `convert_set_type` encodes a
Python value to bytes (strings pass through as UTF-8, everything else is
pickled), `convert_get_type` guesses the original value back from raw bytes
using a UTF-8 / pickle fallback chain driven by a `pickle_first` hint, and
`serialize_np` / `unserialize_np` form an independent codec for 1–3
dimensional numeric arrays.

Byte sequences are modelled as `List Nat` (each element a byte value),
Python strings as lists of Unicode code points, and Python values as the
closed sum `PyValue`.  Exceptions raised by fallible operations are modelled
with `Option` / `Except`.
-/

set_option autoImplicit false

namespace DirectRedis

/-- Model of a Python value as stored/retrieved through the codec: a closed
sum covering strings (as Unicode code points), byte strings, integers,
booleans, `None`, lists and dicts (a dict is the parallel lists of its keys
and of its values). -/
inductive PyValue : Type where
  | str : List Nat → PyValue
  | bytes : List Nat → PyValue
  | int : Int → PyValue
  | bool : Bool → PyValue
  | noneVal : PyValue
  | list : List PyValue → PyValue
  | dict : List PyValue → List PyValue → PyValue

/-- `true` exactly on the `str` variant (Python `isinstance(value, str)`). -/
def PyValue.isStr : PyValue → Bool
  | .str _ => true
  | _ => false

/-- `true` exactly on the `dict` variant (Python `isinstance(mapping, dict)`). -/
def PyValue.isDict : PyValue → Bool
  | .dict _ _ => true
  | _ => false

/-! ### A self-delimiting natural-number code (building block of the pickle model)

The generic serializer (Python's `pickle`) is external library code; it is
modelled here as a concrete injective byte encoding with the two properties
the repository relies on: `pickle.loads` inverts `pickle.dumps`, and pickled
data starts with the protocol header byte `0x80`, which can never begin a
valid UTF-8 byte sequence. -/

/-- Little-endian base-128 varint: bytes with the high bit set carry seven
payload bits and signal continuation. -/
def encNat (n : Nat) : List Nat :=
  if n < 128 then [n]
  else (128 + n % 128) :: encNat (n / 128)
  termination_by n
  decreasing_by omega

/-- Decode a varint, returning the value and the unconsumed remainder. -/
def decNat : List Nat → Option (Nat × List Nat)
  | [] => Option.none
  | b :: rest =>
    if b < 128 then some (b, rest)
    else
      match decNat rest with
      | some (m, r) => some (b - 128 + 128 * m, r)
      | Option.none => Option.none

theorem decNat_encNat (n : Nat) (rest : List Nat) :
    decNat (encNat n ++ rest) = some (n, rest) := by
  induction n using Nat.strong_induction_on generalizing rest with
  | _ n ih =>
    rw [encNat]
    by_cases h : n < 128
    · simp [h, decNat]
    · have hrec := ih (n / 128) (by omega) rest
      simp only [if_neg h, List.cons_append, decNat]
      have hge : ¬ (128 + n % 128 < 128) := by omega
      simp only [if_neg hge, hrec, Option.some.injEq, Prod.mk.injEq]
      exact ⟨by omega, trivial⟩

theorem encNat_length_pos (n : Nat) : 0 < (encNat n).length := by
  rw [encNat]
  by_cases h : n < 128 <;> simp [h]

/-- Concatenated varints of a list of naturals (no count of its own). -/
def encNatSeq : List Nat → List Nat
  | [] => []
  | x :: xs => encNat x ++ encNatSeq xs

/-- Decode exactly `n` varints. -/
def decNatSeq : Nat → List Nat → Option (List Nat × List Nat)
  | 0, b => some ([], b)
  | n + 1, b =>
    match decNat b with
    | some (x, r) =>
      match decNatSeq n r with
      | some (xs, r') => some (x :: xs, r')
      | Option.none => Option.none
    | Option.none => Option.none

/-- Count-prefixed list of naturals. -/
def encNatList (xs : List Nat) : List Nat :=
  encNat xs.length ++ encNatSeq xs

/-- Decode a count-prefixed list of naturals. -/
def decNatList (b : List Nat) : Option (List Nat × List Nat) :=
  match decNat b with
  | some (n, r) => decNatSeq n r
  | Option.none => Option.none

theorem decNatSeq_encNatSeq (xs : List Nat) (rest : List Nat) :
    decNatSeq xs.length (encNatSeq xs ++ rest) = some (xs, rest) := by
  induction xs generalizing rest with
  | nil => simp [encNatSeq, decNatSeq]
  | cons x xs ih =>
    simp only [encNatSeq, List.length_cons, List.append_assoc, decNatSeq,
      decNat_encNat, ih]

theorem decNatList_encNatList (xs : List Nat) (rest : List Nat) :
    decNatList (encNatList xs ++ rest) = some (xs, rest) := by
  simp only [decNatList, encNatList, List.append_assoc, decNat_encNat,
    decNatSeq_encNatSeq]

/-! ### The pickle model -/

mutual

/-- Tag-based binary payload of the pickle model: `0` strings, `1` byte
strings, `2` integers (sign byte then magnitude), `3` booleans, `4` `None`,
`5` lists (count then elements), `6` dicts (key count, value count, keys,
values). -/
def encVal : PyValue → List Nat
  | .str s => 0 :: encNatList s
  | .bytes bs => 1 :: encNatList bs
  | .int i => if i < 0 then 2 :: 1 :: encNat (-i).toNat else 2 :: 0 :: encNat i.toNat
  | .bool b => if b then [3, 1] else [3, 0]
  | .noneVal => [4]
  | .list xs => 5 :: (encNat xs.length ++ encSeq xs)
  | .dict ks vs => 6 :: (encNat ks.length ++ encNat vs.length ++ encSeq ks ++ encSeq vs)

/-- Concatenated encodings of a list of values. -/
def encSeq : List PyValue → List Nat
  | [] => []
  | x :: xs => encVal x ++ encSeq xs

end

mutual

/-- Decode one value of the pickle-model payload.  The first argument is
fuel bounding the nesting depth; every recursive call decreases it. -/
def decVal : Nat → List Nat → Option (PyValue × List Nat)
  | 0, _ => Option.none
  | f + 1, b =>
    match b with
    | 0 :: r =>
      match decNatList r with
      | some (s, r') => some (.str s, r')
      | Option.none => Option.none
    | 1 :: r =>
      match decNatList r with
      | some (bs, r') => some (.bytes bs, r')
      | Option.none => Option.none
    | 2 :: 0 :: r =>
      match decNat r with
      | some (m, r') => some (.int (m : Int), r')
      | Option.none => Option.none
    | 2 :: 1 :: r =>
      match decNat r with
      | some (m, r') => some (.int (-(m : Int)), r')
      | Option.none => Option.none
    | 3 :: 0 :: r => some (.bool false, r)
    | 3 :: 1 :: r => some (.bool true, r)
    | 4 :: r => some (.noneVal, r)
    | 5 :: r =>
      match decNat r with
      | some (n, r1) =>
        match decSeq f n r1 with
        | some (xs, r2) => some (.list xs, r2)
        | Option.none => Option.none
      | Option.none => Option.none
    | 6 :: r =>
      match decNat r with
      | some (kn, r1) =>
        match decNat r1 with
        | some (vn, r2) =>
          match decSeq f kn r2 with
          | some (ks, r3) =>
            match decSeq f vn r3 with
            | some (vs, r4) => some (.dict ks vs, r4)
            | Option.none => Option.none
          | Option.none => Option.none
        | Option.none => Option.none
      | Option.none => Option.none
    | _ => Option.none

/-- Decode exactly `n` values of the pickle-model payload. -/
def decSeq : Nat → Nat → List Nat → Option (List PyValue × List Nat)
  | 0, _, _ => Option.none
  | _ + 1, 0, b => some ([], b)
  | f + 1, n + 1, b =>
    match decVal f b with
    | some (v, r) =>
      match decSeq f n r with
      | some (xs, r') => some (v :: xs, r')
      | Option.none => Option.none
    | Option.none => Option.none

end

mutual

/-- Fuel sufficient for `decVal` to decode an encoding of `v`. -/
def needFuel : PyValue → Nat
  | .list xs => 1 + seqFuel xs
  | .dict ks vs => 1 + max (seqFuel ks) (seqFuel vs)
  | _ => 1

/-- Fuel sufficient for `decSeq` to decode an encoding of `xs`. -/
def seqFuel : List PyValue → Nat
  | [] => 1
  | x :: xs => 1 + max (needFuel x) (seqFuel xs)

end

mutual

theorem decVal_encVal (v : PyValue) :
    ∀ (rest : List Nat) (f : Nat), needFuel v ≤ f →
      decVal f (encVal v ++ rest) = some (v, rest) := by
  cases v with
  | str s =>
    intro rest f hf
    match f, hf with
    | f + 1, _ =>
      simp [encVal, decVal, decNatList_encNatList]
  | bytes bs =>
    intro rest f hf
    match f, hf with
    | f + 1, _ =>
      simp [encVal, decVal, decNatList_encNatList]
  | int i =>
    intro rest f hf
    match f, hf with
    | f + 1, _ =>
      by_cases hi : i < 0
      · have he : -(((-i).toNat : Int)) = i := by omega
        simp only [encVal, if_pos hi, List.cons_append, decVal, decNat_encNat, he]
      · have he : ((i.toNat : Nat) : Int) = i := by omega
        simp only [encVal, if_neg hi, List.cons_append, decVal, decNat_encNat, he]
  | bool b =>
    intro rest f hf
    match f, hf with
    | f + 1, _ =>
      cases b <;> simp [encVal, decVal]
  | noneVal =>
    intro rest f hf
    match f, hf with
    | f + 1, _ =>
      simp [encVal, decVal]
  | list xs =>
    intro rest f hf
    rcases f with _ | f
    · exfalso
      simp only [needFuel] at hf
      omega
    · have hxs : seqFuel xs ≤ f := by
        simp only [needFuel] at hf
        omega
      simp only [encVal, List.cons_append, List.append_assoc, decVal,
        decNat_encNat, decSeq_encSeq xs rest f hxs]
  | dict ks vs =>
    intro rest f hf
    rcases f with _ | f
    · exfalso
      simp only [needFuel] at hf
      omega
    · have hks : seqFuel ks ≤ f := by
        simp only [needFuel] at hf
        omega
      have hvs : seqFuel vs ≤ f := by
        simp only [needFuel] at hf
        omega
      simp only [encVal, List.cons_append, List.append_assoc, decVal,
        decNat_encNat, decSeq_encSeq ks (encSeq vs ++ rest) f hks,
        decSeq_encSeq vs rest f hvs]

theorem decSeq_encSeq (xs : List PyValue) :
    ∀ (rest : List Nat) (f : Nat), seqFuel xs ≤ f →
      decSeq f xs.length (encSeq xs ++ rest) = some (xs, rest) := by
  cases xs with
  | nil =>
    intro rest f hf
    match f, hf with
    | f + 1, _ =>
      simp [encSeq, decSeq]
  | cons x xs =>
    intro rest f hf
    rcases f with _ | f
    · exfalso
      simp only [seqFuel] at hf
      omega
    · have hx : needFuel x ≤ f := by
        simp only [seqFuel] at hf
        omega
      have hxs : seqFuel xs ≤ f := by
        simp only [seqFuel] at hf
        omega
      simp only [encSeq, List.length_cons, List.append_assoc, decSeq,
        decVal_encVal x (encSeq xs ++ rest) f hx,
        decSeq_encSeq xs rest f hxs]

end

theorem encVal_length_pos (v : PyValue) : 0 < (encVal v).length := by
  cases v with
  | int i => by_cases hi : i < 0 <;> simp [encVal, hi]
  | bool b => cases b <;> simp [encVal]
  | _ => simp [encVal]

mutual

theorem needFuel_le_length (v : PyValue) : needFuel v ≤ (encVal v).length := by
  cases v with
  | int i =>
    by_cases hi : i < 0 <;> simp [needFuel, encVal, hi]
  | bool b => cases b <;> simp [needFuel, encVal]
  | list xs =>
    have h := seqFuel_le_length xs
    have hn := encNat_length_pos xs.length
    simp only [needFuel, encVal, List.length_cons, List.length_append]
    omega
  | dict ks vs =>
    have hk := seqFuel_le_length ks
    have hv := seqFuel_le_length vs
    have hnk := encNat_length_pos ks.length
    have hnv := encNat_length_pos vs.length
    simp only [needFuel, encVal, List.length_cons, List.length_append]
    omega
  | _ => simp [needFuel, encVal]

theorem seqFuel_le_length (xs : List PyValue) :
    seqFuel xs ≤ 1 + (encSeq xs).length := by
  cases xs with
  | nil => simp [seqFuel, encSeq]
  | cons x xs =>
    have hx := needFuel_le_length x
    have hxs := seqFuel_le_length xs
    have hp := encVal_length_pos x
    simp only [seqFuel, encSeq, List.length_append]
    omega

end

/-- Model of `pickle.dumps`: the 2-byte protocol header (`0x80` then the
protocol number) followed by the tagged payload.  Every pickled byte string
begins with `0x80`, which is never the first byte of valid UTF-8. -/
def pickleDumps (v : PyValue) : List Nat :=
  128 :: 4 :: encVal v

/-- Model of `pickle.loads`: accepts exactly the byte strings produced by
`pickleDumps`; on anything else it fails (the failure that
`convert_get_type` catches as `pickle.PickleError`). -/
def pickleLoads (b : List Nat) : Option PyValue :=
  match b with
  | p0 :: p1 :: r =>
    if p0 = 128 ∧ p1 = 4 then
      match decVal (r.length + 1) r with
      | some (v, []) => some v
      | _ => Option.none
    else Option.none
  | _ => Option.none

theorem pickleLoads_pickleDumps (v : PyValue) :
    pickleLoads (pickleDumps v) = some v := by
  have hf : needFuel v ≤ (encVal v).length + 1 := by
    have := needFuel_le_length v
    omega
  have hdec := decVal_encVal v [] ((encVal v).length + 1) hf
  rw [List.append_nil] at hdec
  simp [pickleDumps, pickleLoads, hdec]

theorem pickleLoads_eq_none_of_head_ne (b : List Nat)
    (h : ∀ (t : List Nat), b ≠ 128 :: t) : pickleLoads b = Option.none := by
  match b with
  | [] => rfl
  | [x] => rfl
  | x :: y :: t =>
    have hx : x ≠ 128 := by
      intro he
      exact h (y :: t) (by rw [he])
    simp [pickleLoads, hx]

/-! ### UTF-8 (model of Python `str.encode("utf-8")` / `bytes.decode("utf-8")`)

Strings are lists of Unicode code points; a code point is storable iff it is
a Unicode scalar value (below `0x110000` and not a surrogate), which is
exactly when CPython's strict UTF-8 codec accepts it. -/

/-- A Unicode scalar value: encodable by Python's UTF-8 codec. -/
def validScalar (c : Nat) : Prop :=
  c < 1114112 ∧ (c < 55296 ∨ 57344 ≤ c)

instance (c : Nat) : Decidable (validScalar c) := by
  unfold validScalar
  infer_instance

/-- The UTF-8 byte sequence of one code point (1–4 bytes). -/
def utf8EncodeChar (c : Nat) : List Nat :=
  if c < 128 then [c]
  else if c < 2048 then [192 + c / 64, 128 + c % 64]
  else if c < 65536 then [224 + c / 4096, 128 + c / 64 % 64, 128 + c % 64]
  else [240 + c / 262144, 128 + c / 4096 % 64, 128 + c / 64 % 64, 128 + c % 64]

/-- UTF-8 encoding of a string (list of code points). -/
def utf8Encode : List Nat → List Nat
  | [] => []
  | c :: cs => utf8EncodeChar c ++ utf8Encode cs

/-- Decode one UTF-8-encoded code point from byte `b` followed by `rest`;
returns the code point and the unconsumed remainder.  Enforces the strict
checks of CPython's codec: continuation-byte ranges, no overlong forms, no
surrogates, nothing beyond `U+10FFFF`. -/
def utf8Step (b : Nat) (rest : List Nat) : Option (Nat × List Nat) :=
  if b < 128 then some (b, rest)
  else if b < 194 then Option.none
  else if b < 224 then
    match rest with
    | b1 :: r =>
      if 128 ≤ b1 ∧ b1 < 192 then some ((b - 192) * 64 + (b1 - 128), r)
      else Option.none
    | [] => Option.none
  else if b < 240 then
    match rest with
    | b1 :: b2 :: r =>
      if (128 ≤ b1 ∧ b1 < 192) ∧ (128 ≤ b2 ∧ b2 < 192)
          ∧ (b = 224 → 160 ≤ b1) ∧ (b = 237 → b1 < 160) then
        some ((b - 224) * 4096 + (b1 - 128) * 64 + (b2 - 128), r)
      else Option.none
    | _ => Option.none
  else if b < 245 then
    match rest with
    | b1 :: b2 :: b3 :: r =>
      if (128 ≤ b1 ∧ b1 < 192) ∧ (128 ≤ b2 ∧ b2 < 192) ∧ (128 ≤ b3 ∧ b3 < 192)
          ∧ (b = 240 → 144 ≤ b1) ∧ (b = 244 → b1 < 144) then
        some ((b - 240) * 262144 + (b1 - 128) * 4096 + (b2 - 128) * 64 + (b3 - 128), r)
      else Option.none
    | _ => Option.none
  else Option.none

/-- Decode a whole byte sequence, with fuel bounding the number of decoded
code points (one byte of input is consumed per step, so the input length is
always enough fuel). -/
def utf8DecodeAux : Nat → List Nat → Option (List Nat)
  | _, [] => some []
  | 0, _ :: _ => Option.none
  | f + 1, b :: rest =>
    match utf8Step b rest with
    | some (c, r) => (utf8DecodeAux f r).map (fun cs => c :: cs)
    | Option.none => Option.none

def utf8Decode (b : List Nat) : Option (List Nat) :=
  utf8DecodeAux b.length b

theorem utf8Step_remainder_le (b : Nat) (rest : List Nat) (c : Nat) (r : List Nat)
    (h : utf8Step b rest = some (c, r)) : r.length ≤ rest.length := by
  rcases rest with _ | ⟨b1, _ | ⟨b2, _ | ⟨b3, rr⟩⟩⟩ <;>
    · simp only [utf8Step] at h
      repeat' split at h
      all_goals
        first
        | exact (Option.noConfusion h)
        | (simp only [Option.some.injEq, Prod.mk.injEq] at h
           rw [← h.2] <;> simp only [List.length_cons, List.length_nil] <;> omega)

/-- The fuel argument is irrelevant once it is at least the input length. -/
theorem utf8DecodeAux_fuel (f1 f2 : Nat) (b : List Nat)
    (h1 : b.length ≤ f1) (h2 : b.length ≤ f2) :
    utf8DecodeAux f1 b = utf8DecodeAux f2 b := by
  induction f1 generalizing f2 b with
  | zero =>
    match b, h1 with
    | [], _ =>
      cases f2 <;> rfl
  | succ f1 ih =>
    match b with
    | [] => cases f2 <;> rfl
    | x :: rest =>
      match f2, h2 with
      | f2 + 1, h2 =>
        simp only [utf8DecodeAux]
        cases hs : utf8Step x rest with
        | none => rfl
        | some cr =>
          obtain ⟨c, r⟩ := cr
          have hr := utf8Step_remainder_le x rest c r hs
          simp only [List.length_cons] at h1 h2
          dsimp only
          rw [ih f2 r (by omega) (by omega)]

theorem utf8Decode_cons_eq (b : Nat) (rest : List Nat) :
    utf8Decode (b :: rest) =
      match utf8Step b rest with
      | some (c, r) => (utf8DecodeAux rest.length r).map (fun cs => c :: cs)
      | Option.none => Option.none := by
  simp only [utf8Decode, List.length_cons, utf8DecodeAux]

theorem utf8Decode_encodeChar (c : Nat) (h : validScalar c) (t : List Nat) :
    utf8Decode (utf8EncodeChar c ++ t) = (utf8Decode t).map (fun cs => c :: cs) := by
  obtain ⟨hmax, hsur⟩ := h
  have hstep : utf8Step ((utf8EncodeChar c).headI) ((utf8EncodeChar c).tail ++ t)
      = some (c, t) := by
    by_cases h1 : c < 128
    · simp only [utf8EncodeChar, if_pos h1, List.headI, List.tail, List.nil_append, utf8Step,
        if_pos h1]
    · by_cases h2 : c < 2048
      · have hval : (192 + c / 64 - 192) * 64 + (128 + c % 64 - 128) = c := by omega
        have hA : ¬ (192 + c / 64 < 128) := by omega
        have hB : ¬ (192 + c / 64 < 194) := by omega
        have hC : 192 + c / 64 < 224 := by omega
        have hD : 128 ≤ 128 + c % 64 ∧ 128 + c % 64 < 192 := by omega
        simp only [utf8EncodeChar, if_neg h1, if_pos h2, List.headI, List.tail,
          List.cons_append, List.nil_append, utf8Step]
        rw [if_neg hA, if_neg hB, if_pos hC]
        simp only [if_pos hD, hval]
      · by_cases h3 : c < 65536
        · have hval : (224 + c / 4096 - 224) * 4096 + (128 + c / 64 % 64 - 128) * 64
              + (128 + c % 64 - 128) = c := by omega
          have hA : ¬ (224 + c / 4096 < 128) := by omega
          have hB : ¬ (224 + c / 4096 < 194) := by omega
          have hC : ¬ (224 + c / 4096 < 224) := by omega
          have hD : 224 + c / 4096 < 240 := by omega
          have hE : (128 ≤ 128 + c / 64 % 64 ∧ 128 + c / 64 % 64 < 192)
              ∧ (128 ≤ 128 + c % 64 ∧ 128 + c % 64 < 192)
              ∧ (224 + c / 4096 = 224 → 160 ≤ 128 + c / 64 % 64)
              ∧ (224 + c / 4096 = 237 → 128 + c / 64 % 64 < 160) := by omega
          simp only [utf8EncodeChar, if_neg h1, if_neg h2, if_pos h3, List.headI, List.tail,
            List.cons_append, List.nil_append, utf8Step]
          rw [if_neg hA, if_neg hB, if_neg hC, if_pos hD]
          simp only [if_pos hE, hval]
        · have hval : (240 + c / 262144 - 240) * 262144 + (128 + c / 4096 % 64 - 128) * 4096
              + (128 + c / 64 % 64 - 128) * 64 + (128 + c % 64 - 128) = c := by omega
          have hA : ¬ (240 + c / 262144 < 128) := by omega
          have hB : ¬ (240 + c / 262144 < 194) := by omega
          have hC : ¬ (240 + c / 262144 < 224) := by omega
          have hD : ¬ (240 + c / 262144 < 240) := by omega
          have hD2 : 240 + c / 262144 < 245 := by omega
          have hE : (128 ≤ 128 + c / 4096 % 64 ∧ 128 + c / 4096 % 64 < 192)
              ∧ (128 ≤ 128 + c / 64 % 64 ∧ 128 + c / 64 % 64 < 192)
              ∧ (128 ≤ 128 + c % 64 ∧ 128 + c % 64 < 192)
              ∧ (240 + c / 262144 = 240 → 144 ≤ 128 + c / 4096 % 64)
              ∧ (240 + c / 262144 = 244 → 128 + c / 4096 % 64 < 144) := by omega
          simp only [utf8EncodeChar, if_neg h1, if_neg h2, if_neg h3, List.headI, List.tail,
            List.cons_append, List.nil_append, utf8Step]
          rw [if_neg hA, if_neg hB, if_neg hC, if_neg hD, if_pos hD2]
          simp only [if_pos hE, hval]
  have hne : utf8EncodeChar c ≠ [] := by
    unfold utf8EncodeChar
    by_cases h1 : c < 128
    · simp [h1]
    · by_cases h2 : c < 2048
      · simp [h1, h2]
      · by_cases h3 : c < 65536 <;> simp [h1, h2, h3]
  obtain ⟨e0, etail, hsplit⟩ : ∃ e0 etail, utf8EncodeChar c = e0 :: etail := by
    cases he : utf8EncodeChar c with
    | nil => exact absurd he hne
    | cons e0 etail => exact ⟨e0, etail, rfl⟩
  rw [hsplit] at hstep ⊢
  simp only [List.headI, List.tail] at hstep
  rw [List.cons_append, utf8Decode_cons_eq, hstep]
  dsimp only
  rw [utf8DecodeAux_fuel (etail ++ t).length t.length t
    (by simp only [List.length_append]; omega) (le_refl t.length)]
  rfl

/-- Strings encode and decode back to themselves: the repository's
"text always survives a UTF-8 round trip" assumption. -/
theorem utf8Decode_utf8Encode (s : List Nat) (h : ∀ c ∈ s, validScalar c) :
    utf8Decode (utf8Encode s) = some s := by
  induction s with
  | nil => rfl
  | cons c cs ih =>
    have hc : validScalar c := h c (List.mem_cons_self c cs)
    have hcs := ih (fun x hx => h x (List.mem_cons_of_mem c hx))
    simp only [utf8Encode, utf8Decode_encodeChar c hc, hcs]
    rfl

/-- UTF-8 output never begins with the pickle protocol header byte `0x80`. -/
theorem utf8Encode_head_ne (s : List Nat) (t : List Nat) :
    utf8Encode s ≠ 128 :: t := by
  cases s with
  | nil => simp [utf8Encode]
  | cons c cs =>
    simp only [utf8Encode]
    by_cases h1 : c < 128
    · simp only [utf8EncodeChar, if_pos h1, List.cons_append]
      intro he
      injection he with he1 _
      omega
    · by_cases h2 : c < 2048
      · simp only [utf8EncodeChar, if_neg h1, if_pos h2, List.cons_append]
        intro he
        injection he with he1 _
        omega
      · by_cases h3 : c < 65536
        · simp only [utf8EncodeChar, if_neg h1, if_neg h2, if_pos h3, List.cons_append]
          intro he
          injection he with he1 _
          omega
        · simp only [utf8EncodeChar, if_neg h1, if_neg h2, if_neg h3, List.cons_append]
          intro he
          injection he with he1 _
          omega

/-- Pickle deserialization fails on every UTF-8 text encoding (the property
the decode fallback chain relies on). -/
theorem pickleLoads_utf8Encode (s : List Nat) :
    pickleLoads (utf8Encode s) = Option.none :=
  pickleLoads_eq_none_of_head_ne (utf8Encode s) (utf8Encode_head_ne s)

/-! ### The conversion layer (`direct_redis/functions.py`) -/

/-- `convert_set_type`: strings pass through (the store client then sends
their UTF-8 bytes on the wire), everything else is `pickle.dumps`-ed. -/
def convert_set_type (value : PyValue) : List Nat :=
  match value with
  | .str s => utf8Encode s
  | v => pickleDumps v

/-- `convert_set_mapping_dic`: apply `convert_set_type` to every value of a
mapping, keys unchanged. -/
def convert_set_mapping_dic {K : Type} (dic : List (K × PyValue)) : List (K × List Nat) :=
  dic.map (fun kv => (kv.1, convert_set_type kv.2))

/-- The tail of `convert_get_type` after the optional pickle-first attempt:
try UTF-8; on `UnicodeDecodeError`, if `pickle_first` was false try pickle
now; final fallback returns the raw bytes. -/
def decodeTail (encoded : List Nat) (pickle_first : Bool) : PyValue :=
  match utf8Decode encoded with
  | some s => .str s
  | Option.none =>
    if !pickle_first then
      match pickleLoads encoded with
      | some v => v
      | Option.none => .bytes encoded
    else .bytes encoded

/-- The body of `convert_get_type` on non-`None` input, mirroring its
control flow: optional pickle-first attempt, then the UTF-8/pickle/raw
fallback chain. -/
def decodeBytes (encoded : List Nat) (pickle_first : Bool) : PyValue :=
  if pickle_first then
    match pickleLoads encoded with
    | some v => v
    | Option.none => decodeTail encoded pickle_first
  else decodeTail encoded pickle_first

/-- `convert_get_type`: `None` passes through, otherwise decode the bytes. -/
def convert_get_type (encoded : Option (List Nat)) (pickle_first : Bool) : Option PyValue :=
  match encoded with
  | Option.none => Option.none
  | some b => some (decodeBytes b pickle_first)

/-- The decode precedence exactly as the specification words it (steps
1–3 of `Decode`); to be compared against `decodeBytes` from the source. -/
def decodeSpec (b : List Nat) (pickleFirst : Bool) : PyValue :=
  if pickleFirst then
    match pickleLoads b with
    | some v => v
    | Option.none =>
      match utf8Decode b with
      | some s => .str s
      | Option.none => .bytes b
  else
    match utf8Decode b with
    | some s => .str s
    | Option.none =>
      match pickleLoads b with
      | some v => v
      | Option.none => .bytes b

/-- The "text half" of Decode as the specification words it for the
key-listing operations: UTF-8 decode, raw bytes on failure, never pickle. -/
def textDecodeOnly (b : List Nat) : PyValue :=
  match utf8Decode b with
  | some s => .str s
  | Option.none => .bytes b

/-! ### Wrapped store operations (`direct_redis/direct_redis.py`)

Each model maps the byte-level reply of the external store (an opaque
collaborator) through the conversion layer exactly as the corresponding
`DirectRedis` method does. -/

/-- `DirectRedis.keys`: decode every returned key with `pickle_first=False`. -/
def keysModel (encoded : List (List Nat)) : List (Option PyValue) :=
  encoded.map (fun key => convert_get_type (some key) false)

/-- `DirectRedis.randomkey`: decode the store reply with `pickle_first=False`. -/
def randomkeyModel (encoded : Option (List Nat)) : Option PyValue :=
  convert_get_type encoded false

/-- `DirectRedis.type`: decode the store reply with `pickle_first=False`. -/
def typeModel (encoded : Option (List Nat)) : Option PyValue :=
  convert_get_type encoded false

/-- `DirectRedis.get`: decode the store reply with the caller's hint. -/
def getModel (encoded : Option (List Nat)) (pickle_first : Bool) : Option PyValue :=
  convert_get_type encoded pickle_first

/-- `DirectRedis.set`: encode the value before passing it to the store. -/
def setModel (value : PyValue) : List Nat :=
  convert_set_type value

/-- `DirectRedis.mset`: reject non-dict arguments with
`ValueError("mapping must be a python dictionary")`, otherwise pass the
value-encoded mapping to the store. -/
def msetModel (mapping : PyValue) : Except String (List (PyValue × List Nat)) :=
  match mapping with
  | .dict ks vs => .ok (convert_set_mapping_dic (ks.zip vs))
  | _ => .error "mapping must be a python dictionary"

/-- `DirectRedis.hmset`: same validation and encoding as `mset`. -/
def hmsetModel (mapping : PyValue) : Except String (List (PyValue × List Nat)) :=
  match mapping with
  | .dict ks vs => .ok (convert_set_mapping_dic (ks.zip vs))
  | _ => .error "mapping must be a python dictionary"

/-- The call `DirectRedis.hset` forwards to the store: either the mapping
form or the single key/value form. -/
inductive HsetCall : Type where
  | viaMapping : List (PyValue × List Nat) → HsetCall
  | viaField : Option PyValue → List Nat → HsetCall

/-- `DirectRedis.hset`: `if mapping:` — a *truthy* (present and non-empty)
mapping is value-encoded and forwarded; otherwise the single key/value pair
is forwarded with the value encoded (`value=None` encodes Python `None`). -/
def hsetModel (key : Option PyValue) (value : Option PyValue)
    (mapping : Option (List (PyValue × PyValue))) : HsetCall :=
  match mapping with
  | some m =>
    if m.isEmpty then .viaField key (convert_set_type (value.getD .noneVal))
    else .viaMapping (convert_set_mapping_dic m)
  | Option.none => .viaField key (convert_set_type (value.getD .noneVal))

/-- `DirectRedis.hgetall`: field names are decoded with `k.decode("utf-8")`
(failure raises, modelled as `Option.none`), field values with the full
`convert_get_type` chain under the caller's hint. -/
def hgetallModel (encoded : List (List Nat × List Nat)) (pickle_first : Bool) :
    Option (List (List Nat × PyValue)) :=
  match encoded with
  | [] => some []
  | kv :: t =>
    match utf8Decode kv.1 with
    | some ks => (hgetallModel t pickle_first).map (fun r => (ks, decodeBytes kv.2 pickle_first) :: r)
    | Option.none => Option.none

/-! ### The numeric-array codec (`serialize_np` / `unserialize_np`)

A NumPy array is modelled by its dtype code (`dtype.num`), its shape, and
its raw element bytes (`tobytes()`); `np.frombuffer` reinterprets those
bytes, so byte-level equality of `data` models element equality. -/

/-- Model of a NumPy array. -/
structure NpArray : Type where
  dtypeNum : Nat
  shape : List Nat
  data : List Nat
  deriving DecidableEq, Repr

/-- Item size in bytes of a dtype code (`np.typeDict[num].itemsize` on a
64-bit platform); `Option.none` models the `KeyError` for unknown codes. -/
def itemsizeOf : Nat → Option Nat
  | 0 => some 1
  | 1 => some 1
  | 2 => some 1
  | 3 => some 2
  | 4 => some 2
  | 5 => some 4
  | 6 => some 4
  | 7 => some 8
  | 8 => some 8
  | 9 => some 8
  | 10 => some 8
  | 11 => some 4
  | 12 => some 8
  | 13 => some 16
  | 14 => some 8
  | 15 => some 16
  | 16 => some 32
  | _ => Option.none

theorem itemsizeOf_pos (n s : Nat) (h : itemsizeOf n = some s) : 0 < s := by
  unfold itemsizeOf at h
  split at h <;> first
    | exact (Option.noConfusion h)
    | (injection h with h'
       omega)

/-- `struct.pack(">I", n)`: four big-endian bytes. -/
def pack32 (n : Nat) : List Nat :=
  [n / 16777216 % 256, n / 65536 % 256, n / 256 % 256, n % 256]

/-- `struct.unpack(">I", ...)` of four bytes. -/
def unpack32 (x0 x1 x2 x3 : Nat) : Nat :=
  ((x0 * 256 + x1) * 256 + x2) * 256 + x3

theorem unpack32_pack32 (n : Nat) (h : n < 4294967296) :
    unpack32 (n / 16777216 % 256) (n / 65536 % 256) (n / 256 % 256) (n % 256) = n := by
  unfold unpack32
  omega

/-- The `">IIII"` header followed by the raw bytes; `struct.pack` raises on
a field beyond 32 bits (`Option.none`). -/
def packHeader (dt d1 d2 d3 : Nat) (data : List Nat) : Option (List Nat) :=
  if dt < 4294967296 ∧ d1 < 4294967296 ∧ d2 < 4294967296 ∧ d3 < 4294967296 then
    some (pack32 dt ++ pack32 d1 ++ pack32 d2 ++ pack32 d3 ++ data)
  else Option.none

/-- `serialize_np`: a 16-byte big-endian header (dtype code, up to three
dims, unused dims zero) followed by `tobytes()`; raises `ValueError`
(here `Option.none`) unless the array is 1-, 2- or 3-dimensional. -/
def serialize_np (a : NpArray) : Option (List Nat) :=
  match a.shape with
  | [d1] => packHeader a.dtypeNum d1 0 0 a.data
  | [d1, d2] => packHeader a.dtypeNum d1 d2 0 a.data
  | [d1, d2, d3] => packHeader a.dtypeNum d1 d2 d3 a.data
  | _ => Option.none

/-- `unserialize_np`: unpack the 16-byte header, reinterpret the remaining
bytes via the dtype's item size (`np.frombuffer`), then reshape —
`(d1,d2,d3)` if `d3 ≠ 0`, else `(d1,d2)` if `d2 ≠ 0`, else the flat
1-D array of every remaining element.  A short buffer, unknown dtype,
non-multiple buffer size or impossible reshape raises (`Option.none`). -/
def unserialize_np (encoded : List Nat) : Option NpArray :=
  match encoded with
  | a0 :: a1 :: a2 :: a3 :: b0 :: b1 :: b2 :: b3 ::
      c0 :: c1 :: c2 :: c3 :: e0 :: e1 :: e2 :: e3 :: rest =>
    let dtype := unpack32 a0 a1 a2 a3
    let d1 := unpack32 b0 b1 b2 b3
    let d2 := unpack32 c0 c1 c2 c3
    let d3 := unpack32 e0 e1 e2 e3
    match itemsizeOf dtype with
    | some isz =>
      if rest.length % isz = 0 then
        let count := rest.length / isz
        if d3 ≠ 0 then
          if d1 * d2 * d3 = count then some ⟨dtype, [d1, d2, d3], rest⟩ else Option.none
        else if d2 ≠ 0 then
          if d1 * d2 = count then some ⟨dtype, [d1, d2], rest⟩ else Option.none
        else some ⟨dtype, [count], rest⟩
      else Option.none
    | Option.none => Option.none
  | _ => Option.none

/-! ### Claims -/

/-- Claim C1: for every non-`None` byte sequence `b` and hint, the decode
precedence of `convert_get_type` is exactly the specification's: with
`pickleFirst` true, pickle is attempted first and returned on success;
otherwise (or after that attempt fails) UTF-8 decoding is attempted and
returned on success; if UTF-8 fails and `pickleFirst` was false, pickle is
attempted now; if every applicable attempt fails the raw bytes are
returned. -/
theorem claim1_decode_precedence (b : List Nat) (pickleFirst : Bool) :
    convert_get_type (some b) pickleFirst = some (decodeSpec b pickleFirst) := by
  cases pickleFirst <;>
    cases hp : pickleLoads b <;> cases hu : utf8Decode b <;>
      simp [convert_get_type, decodeBytes, decodeSpec, decodeTail, hp, hu]

/-- Claim C2: a string value always round-trips through encode then decode,
whatever the `pickle_first` hint, because pickle fails on UTF-8 text and
UTF-8 decoding of the encoding succeeds. -/
theorem claim2_string_roundtrip (s : List Nat) (h : ∀ c ∈ s, validScalar c) (hint : Bool) :
    convert_get_type (some (convert_set_type (.str s))) hint = some (.str s) := by
  have hl := pickleLoads_utf8Encode s
  have hu := utf8Decode_utf8Encode s h
  cases hint <;>
    simp [convert_set_type, convert_get_type, decodeBytes, decodeTail, hl, hu]

theorem claim2_witness :
    (∀ c ∈ [104, 105], validScalar c)
      ∧ convert_get_type (some (convert_set_type (.str [104, 105]))) true
          = some (.str [104, 105]) :=
  ⟨by decide, claim2_string_roundtrip [104, 105] (by decide) true⟩

/-- Claim C3: `convert_get_type` never raises — every deserialization
failure is consumed by the fallback chain and some value is always
returned; the result is `None` exactly when the input is `None`. -/
theorem claim3_decode_total (encoded : Option (List Nat)) (pickle_first : Bool) :
    convert_get_type encoded pickle_first = Option.none ↔ encoded = Option.none := by
  cases encoded <;> simp [convert_get_type]

/-- Claim C4: every non-string serializable value round-trips through
encode then decode with the pickle-first hint. -/
theorem claim4_pickle_roundtrip (v : PyValue) (h : v.isStr = false) :
    convert_get_type (some (convert_set_type v)) true = some v := by
  have hcs : convert_set_type v = pickleDumps v := by
    cases v <;> first
      | rfl
      | simp [PyValue.isStr] at h
  simp [convert_get_type, decodeBytes, hcs, pickleLoads_pickleDumps]

theorem claim4_witness :
    (PyValue.int 42).isStr = false
      ∧ convert_get_type (some (convert_set_type (.int 42))) true = some (.int 42) :=
  ⟨rfl, claim4_pickle_roundtrip (.int 42) rfl⟩

theorem decodeBytes_false_of_loads_none (b : List Nat)
    (h : pickleLoads b = Option.none) : decodeBytes b false = textDecodeOnly b := by
  cases hu : utf8Decode b <;>
    simp [decodeBytes, decodeTail, textDecodeOnly, h, hu]

/-- Claim C5 (counterexample): `keys` decodes each key with the *full*
chain at `pickle_first=False`, so a key that is a valid pickle but not
valid UTF-8 is deserialized — not returned raw as the text-only decode
would do.  The claim that no pickle attempt is made is false. -/
theorem claim5_counterexample :
    keysModel [pickleDumps (.int 0)]
      ≠ [some (textDecodeOnly (pickleDumps (.int 0)))] := by
  have h1 : pickleDumps (PyValue.int 0) = [128, 4, 2, 0, 0] := by
    simp [pickleDumps, encVal, encNat]
  have h2 := pickleLoads_pickleDumps (PyValue.int 0)
  have h3 : utf8Decode [128, 4, 2, 0, 0] = Option.none := rfl
  rw [h1] at h2 ⊢
  simp [keysModel, convert_get_type, decodeBytes, decodeTail, textDecodeOnly, h2, h3]

/-- Claim C5 (amended): `keys`, `randomkey` and `type` decode store replies
with the full `convert_get_type` chain at `pickle_first=False`; this
coincides with the text-only half of Decode exactly on replies on which
pickle deserialization fails (in particular on all genuine text), while a
non-UTF-8 reply that parses as a pickle *is* deserialized. -/
theorem claim5_keys_text_decode (bs : List (List Nat)) (o : Option (List Nat))
    (h : ∀ b ∈ bs, pickleLoads b = Option.none) :
    keysModel bs = bs.map (fun b => some (textDecodeOnly b))
      ∧ randomkeyModel o = convert_get_type o false
      ∧ typeModel o = convert_get_type o false := by
  refine ⟨?_, rfl, rfl⟩
  induction bs with
  | nil => rfl
  | cons b bs ih =>
    have hb := decodeBytes_false_of_loads_none b (h b (List.mem_cons_self b bs))
    have hrest := ih (fun x hx => h x (List.mem_cons_of_mem b hx))
    simp only [keysModel, List.map_cons, convert_get_type, hb] at hrest ⊢
    rw [hrest]

theorem claim5_witness :
    (∀ b ∈ [[104, 105]], pickleLoads b = Option.none)
      ∧ (keysModel [[104, 105]] = [some (textDecodeOnly [104, 105])]
          ∧ randomkeyModel Option.none = convert_get_type Option.none false
          ∧ typeModel Option.none = convert_get_type Option.none false) :=
  ⟨by simp [pickleLoads], claim5_keys_text_decode [[104, 105]] Option.none
    (by simp [pickleLoads])⟩

/-- Claim C7: serializing an array of more than 3 dimensions fails
immediately (`ValueError`, modelled by `Option.none`) and produces no
output. -/
theorem claim7_shape_guard (a : NpArray) (h : 3 < a.shape.length) :
    serialize_np a = Option.none := by
  obtain ⟨dt, shape, data⟩ := a
  rcases shape with _ | ⟨d1, _ | ⟨d2, _ | ⟨d3, _ | ⟨d4, tl⟩⟩⟩⟩ <;>
    simp only [List.length_nil, List.length_cons] at h <;>
    first
      | omega
      | rfl

theorem claim7_witness :
    3 < (NpArray.mk 2 [1, 1, 1, 1] [5]).shape.length
      ∧ serialize_np ⟨2, [1, 1, 1, 1], [5]⟩ = Option.none :=
  ⟨by decide, claim7_shape_guard ⟨2, [1, 1, 1, 1], [5]⟩ (by decide)⟩

/-- Claim C9: `mset` and `hmset` reject a non-mapping argument with
`ValueError` immediately — no value is encoded and nothing is forwarded to
the store. -/
theorem claim9_invalid_mapping (v : PyValue) (h : v.isDict = false) :
    msetModel v = .error "mapping must be a python dictionary"
      ∧ hmsetModel v = .error "mapping must be a python dictionary" := by
  cases v <;> first
    | exact ⟨rfl, rfl⟩
    | simp [PyValue.isDict] at h

theorem claim9_witness :
    (PyValue.int 3).isDict = false
      ∧ (msetModel (.int 3) = .error "mapping must be a python dictionary"
          ∧ hmsetModel (.int 3) = .error "mapping must be a python dictionary") :=
  ⟨rfl, claim9_invalid_mapping (.int 3) rfl⟩

/-- Claim C10: `hgetall` decodes each field name strictly as UTF-8 — a
non-UTF-8 field name makes the whole call raise (`Option.none`), with no
pickle or raw-bytes fallback — while each field value goes through the full
`decodeBytes` chain under the caller's hint. -/
theorem claim10_hgetall (encoded : List (List Nat × List Nat)) (pickle_first : Bool) :
    hgetallModel encoded pickle_first
      = encoded.mapM
          (fun kv => (utf8Decode kv.1).map (fun ks => (ks, decodeBytes kv.2 pickle_first)))
      ∧ hgetallModel [([255], [104])] pickle_first = Option.none := by
  constructor
  · induction encoded with
    | nil => rfl
    | cons kv t ih =>
      rw [List.mapM_cons]
      simp only [hgetallModel, ih]
      cases hu : utf8Decode kv.1 <;>
        cases hm : t.mapM
            (fun kv => (utf8Decode kv.1).map (fun ks => (ks, decodeBytes kv.2 pickle_first))) <;>
          simp [hu, hm]
  · rfl

theorem unserialize_packed (dt d1 d2 d3 : Nat) (data : List Nat) (isz : Nat)
    (hdt : itemsizeOf dt = some isz)
    (h0 : dt < 4294967296) (h1 : d1 < 4294967296) (h2 : d2 < 4294967296)
    (h3 : d3 < 4294967296) (hm : data.length % isz = 0) :
    unserialize_np (pack32 dt ++ pack32 d1 ++ pack32 d2 ++ pack32 d3 ++ data)
      = if d3 ≠ 0 then
          if d1 * d2 * d3 = data.length / isz then some ⟨dt, [d1, d2, d3], data⟩
          else Option.none
        else if d2 ≠ 0 then
          if d1 * d2 = data.length / isz then some ⟨dt, [d1, d2], data⟩
          else Option.none
        else some ⟨dt, [data.length / isz], data⟩ := by
  have e0 := unpack32_pack32 dt h0
  have e1 := unpack32_pack32 d1 h1
  have e2 := unpack32_pack32 d2 h2
  have e3 := unpack32_pack32 d3 h3
  simp only [pack32, List.cons_append, List.nil_append, unserialize_np, e0, e1, e2, e3,
    hdt, if_pos hm]

/-- Claim C6 (counterexample): a 2-D array with second dimension `0` does
not round-trip — its header stores `d2 = 0`, which `unserialize_np` reads
as "1-dimensional", so shape `(3, 0)` comes back as shape `(0,)`. -/
theorem claim6_counterexample :
    (serialize_np ⟨2, [3, 0], []⟩).bind unserialize_np = some ⟨2, [0], []⟩
      ∧ (⟨2, [0], []⟩ : NpArray) ≠ ⟨2, [3, 0], []⟩ := by
  decide

/-- Claim C6 (amended): for a 1-, 2- or 3-dimensional array whose trailing
dimension is nonzero when it has 2 or 3 dimensions (and whose dims fit the
32-bit header fields and whose byte buffer matches shape times item size),
`unserialize_np (serialize_np arr)` reproduces dtype, shape and contents
exactly. -/
theorem claim6_np_roundtrip (a : NpArray) (isz : Nat)
    (hdt : itemsizeOf a.dtypeNum = some isz)
    (hdtlt : a.dtypeNum < 4294967296)
    (hdims : ∀ d ∈ a.shape, d < 4294967296)
    (hrank : 1 ≤ a.shape.length ∧ a.shape.length ≤ 3)
    (hlast : 2 ≤ a.shape.length → a.shape.getLastD 0 ≠ 0)
    (hdata : a.data.length = isz * a.shape.prod) :
    (serialize_np a).bind unserialize_np = some a := by
  have hpos : 0 < isz := itemsizeOf_pos a.dtypeNum isz hdt
  obtain ⟨dt, shape, data⟩ := a
  simp only at hdt hdtlt hdims hrank hlast hdata
  rcases shape with _ | ⟨d1, _ | ⟨d2, _ | ⟨d3, tl⟩⟩⟩
  · exact absurd hrank.1 (by simp)
  · have hd1 : d1 < 4294967296 := hdims d1 (by simp)
    have hprod : ([d1] : List Nat).prod = d1 := by simp
    rw [hprod] at hdata
    have hm : data.length % isz = 0 := by
      rw [hdata]
      exact Nat.mul_mod_right isz d1
    have hc : data.length / isz = d1 := by
      rw [hdata]
      exact Nat.mul_div_cancel_left d1 hpos
    simp only [serialize_np, packHeader]
    rw [if_pos ⟨hdtlt, hd1, by omega, by omega⟩]
    simp only [Option.some_bind]
    rw [unserialize_packed dt d1 0 0 data isz hdt hdtlt hd1 (by omega) (by omega) hm]
    simp [hc]
  · have hd1 : d1 < 4294967296 := hdims d1 (by simp)
    have hd2 : d2 < 4294967296 := hdims d2 (by simp)
    have hd2ne : d2 ≠ 0 := by
      have := hlast (by simp)
      simpa using this
    have hprod : ([d1, d2] : List Nat).prod = d1 * d2 := by simp
    rw [hprod] at hdata
    have hm : data.length % isz = 0 := by
      rw [hdata]
      exact Nat.mul_mod_right isz (d1 * d2)
    have hc : data.length / isz = d1 * d2 := by
      rw [hdata]
      exact Nat.mul_div_cancel_left (d1 * d2) hpos
    simp only [serialize_np, packHeader]
    rw [if_pos ⟨hdtlt, hd1, hd2, by omega⟩]
    simp only [Option.some_bind]
    rw [unserialize_packed dt d1 d2 0 data isz hdt hdtlt hd1 hd2 (by omega) hm]
    simp [hc, hd2ne]
  · rcases tl with _ | ⟨d4, tl⟩
    · have hd1 : d1 < 4294967296 := hdims d1 (by simp)
      have hd2 : d2 < 4294967296 := hdims d2 (by simp)
      have hd3 : d3 < 4294967296 := hdims d3 (by simp)
      have hd3ne : d3 ≠ 0 := by
        have := hlast (by simp)
        simpa using this
      have hprod : ([d1, d2, d3] : List Nat).prod = d1 * d2 * d3 := by
        simp [mul_assoc]
      rw [hprod] at hdata
      have hm : data.length % isz = 0 := by
        rw [hdata]
        exact Nat.mul_mod_right isz (d1 * d2 * d3)
      have hc : data.length / isz = d1 * d2 * d3 := by
        rw [hdata]
        exact Nat.mul_div_cancel_left (d1 * d2 * d3) hpos
      simp only [serialize_np, packHeader]
      rw [if_pos ⟨hdtlt, hd1, hd2, hd3⟩]
      simp only [Option.some_bind]
      rw [unserialize_packed dt d1 d2 d3 data isz hdt hdtlt hd1 hd2 hd3 hm]
      simp [hc, hd3ne]
    · exact absurd hrank.2 (by simp)

theorem claim6_witness :
    itemsizeOf (NpArray.mk 2 [2, 2] [9, 8, 7, 6]).dtypeNum = some 1
      ∧ (NpArray.mk 2 [2, 2] [9, 8, 7, 6]).dtypeNum < 4294967296
      ∧ (∀ d ∈ (NpArray.mk 2 [2, 2] [9, 8, 7, 6]).shape, d < 4294967296)
      ∧ (1 ≤ (NpArray.mk 2 [2, 2] [9, 8, 7, 6]).shape.length
          ∧ (NpArray.mk 2 [2, 2] [9, 8, 7, 6]).shape.length ≤ 3)
      ∧ (2 ≤ (NpArray.mk 2 [2, 2] [9, 8, 7, 6]).shape.length
          → (NpArray.mk 2 [2, 2] [9, 8, 7, 6]).shape.getLastD 0 ≠ 0)
      ∧ (NpArray.mk 2 [2, 2] [9, 8, 7, 6]).data.length
          = 1 * (NpArray.mk 2 [2, 2] [9, 8, 7, 6]).shape.prod
      ∧ (serialize_np ⟨2, [2, 2], [9, 8, 7, 6]⟩).bind unserialize_np
          = some ⟨2, [2, 2], [9, 8, 7, 6]⟩ :=
  ⟨by decide, by decide, by decide, by decide, by decide, by decide,
    claim6_np_roundtrip ⟨2, [2, 2], [9, 8, 7, 6]⟩ 1 (by decide) (by decide) (by decide)
      (by decide) (by decide) (by decide)⟩

/-- Claim C8 (counterexample): `hset` given an *empty* mapping does not
take the mapping path — `if mapping:` is false for an empty dict — so it
falls back to the single key/value call, encoding the default `None`
value; no encoded mapping with the same (empty) key set is produced. -/
theorem claim8_counterexample :
    hsetModel Option.none Option.none (some ([] : List (PyValue × PyValue)))
      = HsetCall.viaField Option.none (pickleDumps PyValue.noneVal) := rfl

/-- Claim C8 (amended): for every mapping given to `mset` or `hmset`, and
every *non-empty* mapping given to `hset` (an empty one is treated as
absent), `convert_set_type` is applied independently to each value while
every key is left untouched, so the encoded mapping has exactly the keys of
the input. -/
theorem claim8_bulk_encode {K : Type} (m : List (K × PyValue)) (ks vs : List PyValue)
    (mp : List (PyValue × PyValue)) (key : Option PyValue) (value : Option PyValue)
    (hne : mp ≠ []) :
    (convert_set_mapping_dic m).map Prod.fst = m.map Prod.fst
      ∧ (convert_set_mapping_dic m).map Prod.snd = m.map (fun kv => convert_set_type kv.2)
      ∧ msetModel (.dict ks vs) = .ok (convert_set_mapping_dic (ks.zip vs))
      ∧ hmsetModel (.dict ks vs) = .ok (convert_set_mapping_dic (ks.zip vs))
      ∧ hsetModel key value (some mp) = .viaMapping (convert_set_mapping_dic mp) := by
  have hemp : mp.isEmpty = false := by
    cases mp with
    | nil => exact absurd rfl hne
    | cons a t => rfl
  refine ⟨?_, ?_, rfl, rfl, ?_⟩
  · rw [convert_set_mapping_dic, List.map_map]
    rfl
  · rw [convert_set_mapping_dic, List.map_map]
    rfl
  · simp [hsetModel, hemp]

theorem claim8_witness :
    ([(PyValue.noneVal, PyValue.noneVal)] : List (PyValue × PyValue)) ≠ []
      ∧ ((convert_set_mapping_dic ([] : List (Nat × PyValue))).map Prod.fst
            = ([] : List (Nat × PyValue)).map Prod.fst
        ∧ (convert_set_mapping_dic ([] : List (Nat × PyValue))).map Prod.snd
            = ([] : List (Nat × PyValue)).map (fun kv => convert_set_type kv.2)
        ∧ msetModel (.dict [] []) = .ok (convert_set_mapping_dic (List.zip [] []))
        ∧ hmsetModel (.dict [] []) = .ok (convert_set_mapping_dic (List.zip [] []))
        ∧ hsetModel Option.none Option.none (some [(PyValue.noneVal, PyValue.noneVal)])
            = .viaMapping (convert_set_mapping_dic [(PyValue.noneVal, PyValue.noneVal)])) :=
  ⟨List.cons_ne_nil _ _,
    claim8_bulk_encode [] [] [] [(PyValue.noneVal, PyValue.noneVal)] Option.none Option.none
      (List.cons_ne_nil _ _)⟩

end DirectRedis
